import Mathlib

/-!
Verification of the paint-shop sequencing notebook.

The notebook solves the paint shop sequencing problem: a sequence of car
types arrives at a paint shop, each position is painted white or black,
per-type demands for each color must be met exactly, and the number of
color changes between consecutive positions is to be minimized.

Embedded here, directly from the notebook's code:
* the set-based binary heuristic (first heuristic cell);
* the capacity-based general heuristic (second heuristic cell);
* the GAMS integer programs: the binary MINLP with objective
  `Sum(i, sqr(X[i] - X[i.lead(1)]))` and the general MIP with the
  linearization variables `Z` and the demand equations.  GAMS `lead`
  references past the end of the set vanish (are treated as zero), so
  the embedded objective and constraints carry that boundary term.
-/

/-- The two paint states, `"white"` and `"black"` in the notebook. -/
inductive Color where
  | white : Color
  | black : Color
deriving DecidableEq, Repr

/-- The color switch performed by the heuristics' `else` branch. -/
def Color.flip : Color → Color
  | .white => .black
  | .black => .white

/-- `changeCount r` counts adjacent positions of `r` holding distinct
colors: the quantity both approaches minimize. -/
def changeCount : List Color → ℕ
  | a :: b :: r => (if a = b then 0 else 1) + changeCount (b :: r)
  | _ => 0

/-- Number of positions of type `t` painted `c`: positions are paired with
their colors and the pairs matching `(t, c)` are counted. -/
def cnt {α : Type} [DecidableEq α] (seq : List α) (r : List Color) (c : Color) (t : α) : ℕ :=
  ((seq.zip r).filter (fun p => decide (p.1 = t) && decide (p.2 = c))).length

/-- An assignment satisfies the demand table: it covers the whole sequence
and, for every type occurring in it, meets the white and black demands
exactly (the `MeetWhiteDemand` and `MeetBlackDemand` equations). -/
def satisfiesDemands {α : Type} [DecidableEq α] (seq : List α) (dw db : α → ℕ)
    (r : List Color) : Prop :=
  r.length = seq.length ∧
    ∀ t ∈ seq, cnt seq r Color.white t = dw t ∧ cnt seq r Color.black t = db t

instance {α : Type} [DecidableEq α] (seq : List α) (dw db : α → ℕ) (r : List Color) :
    Decidable (satisfiesDemands seq dw db r) := by
  unfold satisfiesDemands; infer_instance

/-- All lists of length `n` over the element universe `u`. -/
def allLists {β : Type} (u : List β) : ℕ → List (List β)
  | 0 => [[]]
  | n + 1 => (u.map (fun b => (allLists u n).map (b :: ·))).flatten

/-- Every color assignment of length `n` (candidate solutions of the
integer programs and of the scorer's enumeration). -/
def assignments (n : ℕ) : List (List Color) :=
  allLists [Color.white, Color.black] n

/-- Every 0/1 vector of length `n`, as a list of booleans (values of the
linearization variables `Z`). -/
def boolLists (n : ℕ) : List (List Bool) :=
  allLists [true, false] n

/-! ## The general (capacity-based) greedy heuristic

The notebook's second heuristic keeps `colors = {"white": dict(demand_white),
"black": dict(demand_black)}`, a current color starting at `"white"`, a
`changes` counter and a growing `result` list.  A car is painted with the
current color when that color's remaining capacity for its type is positive;
otherwise the color is flipped, `changes` is incremented, and the car is
painted with the new color.  `paint_car` decrements the chosen capacity
unconditionally, so a capacity may become negative. -/

/-- The heuristic's mutable state: the two capacity dictionaries (as one
function of color and type), the current color, the `changes` counter and
the painted prefix. -/
structure GState (α : Type) where
  caps : Color → α → ℤ
  current : Color
  changes : ℕ
  result : List Color

/-- `paint_car`'s capacity update: decrement color `c`'s capacity for `t`. -/
def capsDec {α : Type} [DecidableEq α] (f : Color → α → ℤ) (c : Color) (t : α) :
    Color → α → ℤ :=
  fun c' t' => if c' = c ∧ t' = t then f c' t' - 1 else f c' t'

/-- One iteration of the general heuristic's loop body. -/
def greedyStep {α : Type} [DecidableEq α] (st : GState α) (car : α) : GState α :=
  if 0 < st.caps st.current car then
    { st with caps := capsDec st.caps st.current car, result := st.result ++ [st.current] }
  else
    { caps := capsDec st.caps st.current.flip car,
      current := st.current.flip,
      changes := st.changes + 1,
      result := st.result ++ [st.current.flip] }

/-- The state before the loop: capacities are the demands, the current
color is white, no changes, empty result. -/
def initState {α : Type} (dw db : α → ℕ) : GState α :=
  { caps := fun c t => match c with | .white => (dw t : ℤ) | .black => (db t : ℤ),
    current := .white,
    changes := 0,
    result := [] }

/-- The whole general heuristic: fold the loop body over the sequence. -/
def greedyRun {α : Type} [DecidableEq α] (seq : List α) (dw db : α → ℕ) : GState α :=
  seq.foldl greedyStep (initState dw db)

/-! ## The binary (set-based) heuristic

The notebook's first heuristic keeps `colors = {"white": set(), "black":
set()}`; a car is painted with the current color when its type is not yet
in that color's set, and `paint_car` adds the type to the chosen set. -/

/-- State of the binary heuristic: one set of already-painted types per
color, the current color, the `changes` counter and the painted prefix. -/
structure BState (α : Type) where
  sets : Color → Finset α
  current : Color
  changes : ℕ
  result : List Color

/-- `paint_car`'s set update: add type `t` to color `c`'s set. -/
def setsIns {α : Type} [DecidableEq α] (f : Color → Finset α) (c : Color) (t : α) :
    Color → Finset α :=
  fun c' => if c' = c then insert t (f c) else f c'

/-- One iteration of the binary heuristic's loop body. -/
def binStep {α : Type} [DecidableEq α] (st : BState α) (car : α) : BState α :=
  if car ∉ st.sets st.current then
    { st with sets := setsIns st.sets st.current car, result := st.result ++ [st.current] }
  else
    { sets := setsIns st.sets st.current.flip car,
      current := st.current.flip,
      changes := st.changes + 1,
      result := st.result ++ [st.current.flip] }

/-- The whole binary heuristic: both sets start empty, the color white. -/
def binRun {α : Type} [DecidableEq α] (seq : List α) : BState α :=
  seq.foldl binStep { sets := fun _ => ∅, current := .white, changes := 0, result := [] }

/-! ## The demo instance -/

/-- The six car types `A`–`F` of the notebook. -/
inductive CarType where
  | A | B | C | D | E | F
deriving DecidableEq, Repr

open CarType in
/-- The notebook's fixed binary-variant sequence
`["A","D","E","B","A","F","C","B","C","D","E","F"]`. -/
def seq12 : List CarType := [A, D, E, B, A, F, C, B, C, D, E, F]

/-- The binary variant's demand table: one white and one black per type. -/
def oneEach : CarType → ℕ := fun _ => 1

/-! ## The integer programs

The binary model's objective is `Sum(i, sqr(X[i] - X[i.lead(1)]))` subject
to `Sum(IJ[i,j], X[i]) == 1` for every type `j`.  The general model
minimizes `Sum(i, Z[i])` subject to `Z[i] >= X[i] - X[i.lead(1)]`,
`Z[i] >= X[i.lead(1)] - X[i]`, and the two demand equations.  `X[i] = 1`
is read as position `i` painted black (`MeetBlackDemand` forces the
number of ones of a type to equal its black demand).  A `lead` reference
past the last element of `i` vanishes in GAMS, so `X[i.lead(1)]` is `0`
there; both embedded objectives keep that trailing term. -/

/-- Value of the binary decision variable `X` at a position of the given
color: `1` for black, `0` for white. -/
def xIval : Color → ℤ := fun c => if c = Color.black then 1 else 0

/-- Value of a linearization variable `Z[i]`. -/
def zVal : Bool → ℤ := fun b => if b then 1 else 0

/-- `X[i.lead(1)]`-style access: out-of-range positions read as white,
hence as `0`, matching GAMS's vanishing lead reference. -/
def xAt (r : List Color) (i : ℕ) : ℤ := xIval (r.getD i Color.white)

/-- The `LinearizeObjective1` and `LinearizeObjective2` equations, stated
for every position `i` of the sequence (as in the GAMS model, where the
equations are declared over the whole set `i`). -/
def linConstraints (r : List Color) (z : List Bool) : Prop :=
  ∀ i < r.length,
    xAt r i - xAt r (i + 1) ≤ zVal (z.getD i false) ∧
      xAt r (i + 1) - xAt r i ≤ zVal (z.getD i false)

instance (r : List Color) (z : List Bool) : Decidable (linConstraints r z) := by
  unfold linConstraints; infer_instance

/-- A feasible point of the general MIP: values for all `X` and `Z`
variables satisfying the demand equations and the linearization
constraints. -/
def ilpPairFeasible {α : Type} [DecidableEq α] (seq : List α) (dw db : α → ℕ)
    (r : List Color) (z : List Bool) : Prop :=
  z.length = seq.length ∧ satisfiesDemands seq dw db r ∧ linConstraints r z

instance {α : Type} [DecidableEq α] (seq : List α) (dw db : α → ℕ) (r : List Color)
    (z : List Bool) : Decidable (ilpPairFeasible seq dw db r z) := by
  unfold ilpPairFeasible; infer_instance

/-- The general MIP's objective `Sum(i, Z[i])` of a 0/1 vector `z`. -/
def zCost (z : List Bool) : ℕ := z.count true

/-- The optimal value of the general MIP: the least objective over all
feasible `(X, Z)` points. -/
def ilpMin {α : Type} [DecidableEq α] (seq : List α) (dw db : α → ℕ) : WithTop ℕ :=
  ((((assignments seq.length).product (boolLists seq.length)).filter
      (fun p => decide (ilpPairFeasible seq dw db p.1 p.2))).map
    (fun p => zCost p.2)).minimum

/-- `1` when the last position is painted black, else `0`: the spurious
boundary term contributed by the vanishing lead reference. -/
def endBlackNat (r : List Color) : ℕ := if r.getLast? = some Color.black then 1 else 0

/-- What the general MIP actually charges an assignment: its change count
plus the boundary term for a black last position. -/
def modelObj (r : List Color) : ℕ := changeCount r + endBlackNat r

/-- The least `modelObj` over the feasible assignments. -/
def modelMin {α : Type} [DecidableEq α] (seq : List α) (dw db : α → ℕ) : WithTop ℕ :=
  (((assignments seq.length).filter
      (fun r => decide (satisfiesDemands seq dw db r))).map modelObj).minimum

/-- The least change count over the feasible assignments: the true
optimum the specification talks about. -/
def trueMin {α : Type} [DecidableEq α] (seq : List α) (dw db : α → ℕ) : WithTop ℕ :=
  (((assignments seq.length).filter
      (fun r => decide (satisfiesDemands seq dw db r))).map changeCount).minimum

/-- An assignment the general MIP's solver may return: feasible, and
extendable by some `Z` vector to a point achieving the optimal value. -/
def ilpOptimal {α : Type} [DecidableEq α] (seq : List α) (dw db : α → ℕ)
    (r : List Color) : Prop :=
  satisfiesDemands seq dw db r ∧
    ∃ z ∈ boolLists seq.length,
      linConstraints r z ∧ (zCost z : WithTop ℕ) = ilpMin seq dw db

instance {α : Type} [DecidableEq α] (seq : List α) (dw db : α → ℕ) (r : List Color) :
    Decidable (ilpOptimal seq dw db r) := by
  unfold ilpOptimal; infer_instance

/-- The pointwise least `Z` vector for a given assignment: `1` exactly
where the two linearization constraints force it. -/
def zChain : List Color → List Bool
  | [] => []
  | [a] => [decide (a = Color.black)]
  | a :: b :: r => decide (a ≠ b) :: zChain (b :: r)

/-- The binary model's MINLP objective `Sum(i, sqr(X[i] - X[i.lead(1)]))`,
with the vanishing lead reference in the last summand. -/
def sqrObj : List Color → ℤ
  | [] => 0
  | [a] => (xIval a - 0) ^ 2
  | a :: b :: r => (xIval a - xIval b) ^ 2 + sqrObj (b :: r)

/-- `equation_two` of the binary model: every type has exactly one
position with `X = 1`. -/
def binFeasible {α : Type} [DecidableEq α] (seq : List α) (r : List Color) : Prop :=
  r.length = seq.length ∧ ∀ t ∈ seq, cnt seq r Color.black t = 1

instance {α : Type} [DecidableEq α] (seq : List α) (r : List Color) :
    Decidable (binFeasible seq r) := by
  unfold binFeasible; infer_instance

/-- The optimal value of the binary MINLP model. -/
def binMin {α : Type} [DecidableEq α] (seq : List α) : WithTop ℤ :=
  (((assignments seq.length).filter
      (fun r => decide (binFeasible seq r))).map sqrObj).minimum

/-- The demand table as one function of color and type. -/
def dems {α : Type} (dw db : α → ℕ) : Color → α → ℤ :=
  fun c t => match c with | .white => (dw t : ℤ) | .black => (db t : ℤ)

/-! ## Concrete instances from the analysis -/

/-- The optimal assignment recorded in the notebook for the binary
instance (`X` values `0,1,1,1,1,1,1,0,0,0,0,0`, with `1` read as black). -/
def xStar : List Color :=
  [Color.white, Color.black, Color.black, Color.black, Color.black, Color.black,
   Color.black, Color.white, Color.white, Color.white, Color.white, Color.white]

/-- A one-car sequence. -/
def seqOne : List CarType := [CarType.A]

/-- A two-car sequence of one type. -/
def seqTwo : List CarType := [CarType.A, CarType.A]

/-- The all-zero white demand table. -/
def dwz : CarType → ℕ := fun _ => 0

/-- The black demand table asking for one black per type. -/
def dbz : CarType → ℕ := fun _ => 1

/-- White demands equal to the occurrence counts of `seqTwo`. -/
def dwFull : CarType → ℕ := fun t => seqTwo.count t

open CarType in
/-- A four-car instance on which the MIP's optimum is tied between two
assignments with different change counts. -/
def seqTie : List CarType := [A, B, C, B]

/-- White demands of the tie instance: one `A`, one `B`. -/
def dwTie : CarType → ℕ := fun t => match t with | .A => 1 | .B => 1 | _ => 0

/-- Black demands of the tie instance: one `B`, one `C`. -/
def dbTie : CarType → ℕ := fun t => match t with | .B => 1 | .C => 1 | _ => 0

/-- The tied optimum with the larger change count. -/
def rTie : List Color := [Color.white, Color.black, Color.black, Color.white]

/-! ## Problem Model construction (spec-modelled) -/

/-- The error vocabulary of the specification's Problem Model. -/
inductive ModelError where
  | invalidInstance : ModelError
deriving DecidableEq, Repr

/-- Modelled from the spec: §4.1's Problem Model constructor with the
DemandTable omitted, which is absent from the notebook (the notebook
hardcodes its instances and never validates them).  The binary variant is
assumed: construction fails with `InvalidInstance` unless every type
occurs exactly twice, and the synthesized demand is one white and one
black per type. -/
def mkBinaryModel {α : Type} [DecidableEq α] (seq : List α) :
    Except ModelError (List α × (α → ℕ) × (α → ℕ)) :=
  if ∀ t ∈ seq, seq.count t = 2 then .ok (seq, fun _ => 1, fun _ => 1)
  else .error .invalidInstance

theorem Color.flip_ne (c : Color) : c.flip ≠ c := by
  cases c <;> simp [Color.flip]

theorem mem_allLists {β : Type} (u : List β) :
    ∀ (n : ℕ) (l : List β), l ∈ allLists u n ↔ l.length = n ∧ ∀ x ∈ l, x ∈ u := by
  intro n
  induction n with
  | zero =>
    intro l
    constructor
    · intro h
      simp only [allLists] at h
      simp_all
    · intro ⟨h1, _⟩
      simp only [allLists]
      simp [List.length_eq_zero.mp h1]
  | succ n ih =>
    intro l
    constructor
    · intro h
      simp only [allLists, List.mem_flatten, List.mem_map] at h
      obtain ⟨L, ⟨b, hb, hL⟩, hlL⟩ := h
      subst hL
      simp only [List.mem_map] at hlL
      obtain ⟨l', hl', rfl⟩ := hlL
      obtain ⟨hlen, helem⟩ := (ih l').mp hl'
      refine ⟨by simp [hlen], ?_⟩
      intro x hx
      rcases List.mem_cons.mp hx with h | h
      · exact h ▸ hb
      · exact helem x h
    · intro ⟨h1, h2⟩
      cases l with
      | nil => simp at h1
      | cons b l' =>
        simp only [allLists, List.mem_flatten, List.mem_map]
        refine ⟨(allLists u n).map (b :: ·), ⟨b, h2 b (by simp), rfl⟩, ?_⟩
        simp only [List.mem_map]
        exact ⟨l', (ih l').mpr ⟨by simpa using h1, fun x hx => h2 x (by simp [hx])⟩, rfl⟩

theorem mem_assignments (n : ℕ) (l : List Color) : l ∈ assignments n ↔ l.length = n := by
  rw [assignments, mem_allLists]
  constructor
  · exact fun h => h.1
  · intro h
    refine ⟨h, fun x _ => ?_⟩
    cases x <;> simp

theorem mem_boolLists (n : ℕ) (l : List Bool) : l ∈ boolLists n ↔ l.length = n := by
  rw [boolLists, mem_allLists]
  constructor
  · exact fun h => h.1
  · intro h
    refine ⟨h, fun x _ => ?_⟩
    cases x <;> simp

/-! ## The linearized objective, evaluated

For a fixed assignment, the least feasible `Z` vector is `zChain`: it
charges one for every adjacent disagreement and one more when the last
position is black (the vanishing lead makes `Z[N] >= X[N]` a constraint).
Hence the MIP's optimal value is the least `modelObj` over the feasible
assignments — the change count plus the boundary term, not the change
count alone. -/

theorem zChain_length : ∀ r : List Color, (zChain r).length = r.length
  | [] => rfl
  | [_] => rfl
  | a :: b :: r => by
    have ih := zChain_length (b :: r)
    simp only [zChain, List.length_cons] at *
    omega

theorem zChain_cost : ∀ r : List Color, (zChain r).count true = modelObj r
  | [] => rfl
  | [a] => by cases a <;> rfl
  | a :: b :: r => by
    have ih := zChain_cost (b :: r)
    simp only [zChain, modelObj, changeCount, endBlackNat, List.getLast?_cons_cons,
      List.count_cons] at *
    by_cases hab : a = b <;> simp [hab] <;> omega

theorem zChain_feasible : ∀ r : List Color, linConstraints r (zChain r)
  | [] => by intro i hi; simp at hi
  | [a] => by
    intro i hi
    simp only [List.length_singleton, Nat.lt_one_iff] at hi
    subst hi
    cases a <;> exact ⟨by decide, by decide⟩
  | a :: b :: r => by
    intro i hi
    cases i with
    | zero =>
      cases a <;> cases b <;>
        refine ⟨?_, ?_⟩ <;>
          simp [zChain, xAt, xIval, zVal, List.getD_cons_succ, List.getD_cons_zero]
    | succ j =>
      have ih := zChain_feasible (b :: r) j (by simpa using hi)
      simpa only [zChain, xAt, List.getD_cons_succ] using ih

theorem zChain_forced :
    ∀ (r : List Color) (i : ℕ), (zChain r).getD i false = true →
      1 ≤ xAt r i - xAt r (i + 1) ∨ 1 ≤ xAt r (i + 1) - xAt r i
  | [], i => by simp [zChain]
  | [a], i => by
    cases i with
    | zero =>
      intro h
      simp only [zChain, List.getD_cons_zero, decide_eq_true_eq] at h
      subst h
      left; decide
    | succ j => simp [zChain]
  | a :: b :: r, i => by
    cases i with
    | zero =>
      intro h
      simp only [zChain, List.getD_cons_zero, decide_eq_true_eq] at h
      cases a <;> cases b <;>
        simp_all [xAt, xIval, List.getD_cons_succ, List.getD_cons_zero]
    | succ j =>
      intro h
      have ih := zChain_forced (b :: r) j (by simpa only [zChain, List.getD_cons_succ] using h)
      simpa only [xAt, List.getD_cons_succ] using ih

theorem count_le_pointwise :
    ∀ (a b : List Bool), a.length = b.length →
      (∀ i < a.length, a.getD i false = true → b.getD i false = true) →
      a.count true ≤ b.count true := by
  intro a
  induction a with
  | nil => intro b _ _; simp
  | cons x a ih =>
    intro b hlen hpt
    cases b with
    | nil => simp at hlen
    | cons y b =>
      have htail : a.count true ≤ b.count true := by
        refine ih b (by simpa using hlen) ?_
        intro i hi h
        exact hpt (i + 1) (by simpa using Nat.succ_lt_succ hi) (by simpa using h)
      have hhead : (if x = true then 1 else 0) ≤ (if y = true then (1 : ℕ) else 0) := by
        cases x with
        | false => simp
        | true =>
          have h0 : (y :: b).getD 0 false = true := hpt 0 (by simp) (by simp)
          simp only [List.getD_cons_zero] at h0
          simp [h0]
      simp only [List.count_cons, beq_iff_eq]
      omega

theorem lin_cost_lower {r : List Color} {z : List Bool} (hlin : linConstraints r z)
    (hlen : z.length = r.length) : modelObj r ≤ zCost z := by
  rw [← zChain_cost r]
  refine count_le_pointwise (zChain r) z (by rw [zChain_length, hlen]) ?_
  intro i hi h
  rw [zChain_length] at hi
  obtain ⟨h1, h2⟩ := hlin i hi
  rcases zChain_forced r i h with hf | hf
  · have : (1 : ℤ) ≤ zVal (z.getD i false) := le_trans hf h1
    cases hz : z.getD i false
    · rw [hz] at this; simp [zVal] at this
    · rfl
  · have : (1 : ℤ) ≤ zVal (z.getD i false) := le_trans hf h2
    cases hz : z.getD i false
    · rw [hz] at this; simp [zVal] at this
    · rfl

theorem zChain_pairFeasible {α : Type} [DecidableEq α] {seq : List α} {dw db : α → ℕ}
    {r : List Color} (h : satisfiesDemands seq dw db r) :
    ilpPairFeasible seq dw db r (zChain r) :=
  ⟨by rw [zChain_length]; exact h.1, h, zChain_feasible r⟩

theorem ilpMin_le_modelMin {α : Type} [DecidableEq α] (seq : List α) (dw db : α → ℕ) :
    ilpMin seq dw db ≤ modelMin seq dw db := by
  rcases hm : modelMin seq dw db with _ | m
  · exact le_top
  · have hm0 := hm
    rw [modelMin] at hm
    obtain ⟨hmem, _⟩ := List.minimum_eq_coe_iff.mp hm
    obtain ⟨r, hr, hobj⟩ := List.mem_map.mp hmem
    have hfe := List.mem_filter.mp hr
    have hfeas : satisfiesDemands seq dw db r := by simpa using hfe.2
    have hzmem : zChain r ∈ boolLists seq.length :=
      (mem_boolLists _ _).mpr (by rw [zChain_length]; exact hfeas.1)
    have hp : (r, zChain r) ∈
        (((assignments seq.length).product (boolLists seq.length)).filter
          (fun p => decide (ilpPairFeasible seq dw db p.1 p.2))) := by
      refine List.mem_filter.mpr ⟨List.pair_mem_product.mpr ⟨hfe.1, hzmem⟩, ?_⟩
      simpa using zChain_pairFeasible hfeas
    have hcost : zCost (zChain r) = m := by
      rw [zCost, zChain_cost r, hobj]
    have hmmem : m ∈ ((((assignments seq.length).product (boolLists seq.length)).filter
        (fun p => decide (ilpPairFeasible seq dw db p.1 p.2))).map (fun p => zCost p.2)) :=
      List.mem_map.mpr ⟨(r, zChain r), hp, hcost⟩
    exact List.minimum_le_of_mem' hmmem

theorem modelMin_le_ilpMin {α : Type} [DecidableEq α] (seq : List α) (dw db : α → ℕ) :
    modelMin seq dw db ≤ ilpMin seq dw db := by
  rcases hi : ilpMin seq dw db with _ | k
  · exact le_top
  · have hi0 := hi
    rw [ilpMin] at hi
    obtain ⟨hmem, _⟩ := List.minimum_eq_coe_iff.mp hi
    obtain ⟨p, hp, hcost⟩ := List.mem_map.mp hmem
    obtain ⟨r, z⟩ := p
    have hfe := List.mem_filter.mp hp
    have hpair : ilpPairFeasible seq dw db r z := by simpa using hfe.2
    have hprod := List.pair_mem_product.mp hfe.1
    have hr : r ∈ (assignments seq.length).filter
        (fun r => decide (satisfiesDemands seq dw db r)) :=
      List.mem_filter.mpr ⟨hprod.1, by simpa using hpair.2.1⟩
    have hobjmem : modelObj r ∈ (((assignments seq.length).filter
        (fun r => decide (satisfiesDemands seq dw db r))).map modelObj) :=
      List.mem_map.mpr ⟨r, hr, rfl⟩
    have hle : modelObj r ≤ k := by
      rw [← hcost]
      exact lin_cost_lower hpair.2.2 (by rw [hpair.1, hpair.2.1.1])
    calc modelMin seq dw db ≤ (modelObj r : WithTop ℕ) := List.minimum_le_of_mem' hobjmem
    _ ≤ (k : WithTop ℕ) := by exact_mod_cast hle

/-- The general MIP's optimal value is exactly the least change count
plus black-last boundary term over the feasible assignments. -/
theorem ilpMin_eq_modelMin {α : Type} [DecidableEq α] (seq : List α) (dw db : α → ℕ) :
    ilpMin seq dw db = modelMin seq dw db :=
  le_antisymm (ilpMin_le_modelMin seq dw db) (modelMin_le_ilpMin seq dw db)

/-! ## Feasibility of the general greedy heuristic

On a valid demand table the loop's capacities never go negative: the two
capacities of a type always sum to the number of its still-unprocessed
occurrences, so when the current color is exhausted the flipped color is
strictly positive.  At the end all capacities are zero, which is exactly
demand satisfaction. -/

theorem initState_caps {α : Type} (dw db : α → ℕ) :
    (initState dw db : GState α).caps = dems dw db := rfl

theorem cnt_append {α : Type} [DecidableEq α] {d : List α} {r : List Color}
    (hl : d.length = r.length) (a : α) (c : Color) (c' : Color) (t : α) :
    cnt (d ++ [a]) (r ++ [c]) c' t =
      cnt d r c' t + (if a = t ∧ c = c' then 1 else 0) := by
  unfold cnt
  rw [List.zip_append hl, List.filter_append, List.length_append]
  congr 1
  by_cases h : a = t ∧ c = c'
  · simp [h.1, h.2]
  · rw [Classical.not_and_iff_or_not_not] at h
    rcases h with h | h <;> simp [h]

theorem caps_current_sum {α : Type} (caps : Color → α → ℤ) (cur : Color) (t : α) :
    caps Color.white t + caps Color.black t = caps cur t + caps cur.flip t := by
  cases cur <;> simp [Color.flip, add_comm]

/-- Painting one car with a color of positive remaining capacity
preserves the loop invariant. -/
theorem paint_update {α : Type} [DecidableEq α] {seq : List α} {dw db : α → ℕ}
    {done rest : List α} {car : α} {caps : Color → α → ℤ} {res : List Color} {c0 : Color}
    (hlen : res.length = done.length)
    (hcap : ∀ c t, caps c t = dems dw db c t - cnt done res c t)
    (hnn : ∀ c t, 0 ≤ caps c t)
    (hsum : ∀ t ∈ seq, caps Color.white t + caps Color.black t = ((car :: rest).count t : ℤ))
    (hpos : 0 < caps c0 car) :
    (res ++ [c0]).length = (done ++ [car]).length ∧
      (∀ c t, capsDec caps c0 car c t =
        dems dw db c t - cnt (done ++ [car]) (res ++ [c0]) c t) ∧
      (∀ c t, 0 ≤ capsDec caps c0 car c t) ∧
      (∀ t ∈ seq, capsDec caps c0 car Color.white t + capsDec caps c0 car Color.black t =
        (rest.count t : ℤ)) := by
  refine ⟨by simp [hlen], ?_, ?_, ?_⟩
  · intro c t
    rw [cnt_append (by omega) car c0 c t]
    unfold capsDec
    by_cases h : c = c0 ∧ t = car
    · rw [if_pos h, if_pos ⟨h.2.symm, h.1.symm⟩, hcap c t]
      push_cast
      ring
    · rw [if_neg h, if_neg ?_, hcap c t]
      · push_cast; ring
      · rintro ⟨h1, h2⟩
        exact h ⟨h2.symm, h1.symm⟩
  · intro c t
    unfold capsDec
    by_cases h : c = c0 ∧ t = car
    · rw [if_pos h, h.1, h.2]
      omega
    · rw [if_neg h]
      exact hnn c t
  · intro t ht
    have hs := hsum t ht
    unfold capsDec
    by_cases hta : t = car
    · subst hta
      rw [List.count_cons_self] at hs
      push_cast at hs
      cases c0 <;> (simp; omega)
    · have hcnt : ((car :: rest).count t : ℤ) = (rest.count t : ℤ) := by
        rw [List.count_cons]
        simp [Ne.symm hta]
      rw [if_neg (by tauto), if_neg (by tauto), hs, hcnt]

/-- The loop invariant of the general heuristic, pushed through the rest
of the sequence: at the end every capacity equals demand minus painted
count, stays non-negative, and the two capacities of each type sum to
zero. -/
theorem greedy_invariant {α : Type} [DecidableEq α] (seq : List α) (dw db : α → ℕ) :
    ∀ (rest done : List α) (st : GState α),
      done ++ rest = seq →
      st.result.length = done.length →
      (∀ c t, st.caps c t = dems dw db c t - cnt done st.result c t) →
      (∀ c t, 0 ≤ st.caps c t) →
      (∀ t ∈ seq, st.caps Color.white t + st.caps Color.black t = (rest.count t : ℤ)) →
      (rest.foldl greedyStep st).result.length = seq.length ∧
        (∀ c t, (rest.foldl greedyStep st).caps c t =
          dems dw db c t - cnt seq (rest.foldl greedyStep st).result c t) ∧
        (∀ c t, 0 ≤ (rest.foldl greedyStep st).caps c t) ∧
        (∀ t ∈ seq, (rest.foldl greedyStep st).caps Color.white t +
          (rest.foldl greedyStep st).caps Color.black t = 0)
  | [], done, st => fun hseq hlen hcap hnn hsum => by
    simp only [List.foldl_nil]
    have hdone : done = seq := by simpa using hseq
    subst hdone
    refine ⟨by rw [hlen], hcap, hnn, ?_⟩
    intro t ht
    simpa using hsum t ht
  | car :: rest, done, st => fun hseq hlen hcap hnn hsum => by
    rw [List.foldl_cons]
    have hcarseq : car ∈ seq := by
      rw [← hseq]
      simp
    unfold greedyStep
    by_cases hpos : 0 < st.caps st.current car
    · rw [if_pos hpos]
      obtain ⟨h1, h2, h3, h4⟩ := paint_update hlen hcap hnn hsum hpos
      exact greedy_invariant seq dw db rest (done ++ [car]) _
        (by simpa using hseq) h1 h2 h3 h4
    · rw [if_neg hpos]
      have hzero : st.caps st.current car = 0 := le_antisymm (not_lt.mp hpos) (hnn _ _)
      have hflip : 0 < st.caps st.current.flip car := by
        have hs := hsum car hcarseq
        rw [caps_current_sum st.caps st.current car, hzero, List.count_cons_self] at hs
        push_cast at hs
        omega
      obtain ⟨h1, h2, h3, h4⟩ := paint_update hlen hcap hnn hsum hflip
      exact greedy_invariant seq dw db rest (done ++ [car]) _
        (by simpa using hseq) h1 h2 h3 h4

/-- On a valid demand table the general greedy heuristic's output
satisfies every demand exactly. -/
theorem greedy_feasible {α : Type} [DecidableEq α] (seq : List α) (dw db : α → ℕ)
    (hv : ∀ t ∈ seq, dw t + db t = seq.count t) :
    satisfiesDemands seq dw db (greedyRun seq dw db).result := by
  unfold greedyRun
  have hinv := greedy_invariant seq dw db seq [] (initState dw db) rfl rfl
    (by
      intro c t
      simp [initState, dems, cnt])
    (by
      intro c t
      cases c <;> simp [initState, dems])
    (by
      intro t ht
      have := hv t ht
      simp only [initState, dems]
      omega)
  obtain ⟨h1, h2, h3, h4⟩ := hinv
  refine ⟨h1, ?_⟩
  intro t ht
  have hw := h2 Color.white t
  have hb := h2 Color.black t
  have hnnw := h3 Color.white t
  have hnnb := h3 Color.black t
  have hz := h4 t ht
  rw [hw] at hnnw
  rw [hb] at hnnb
  rw [hw, hb] at hz
  simp only [dems] at hnnw hnnb hz
  constructor
  · have : (cnt seq (seq.foldl greedyStep (initState dw db)).result Color.white t : ℤ) =
        (dw t : ℤ) := by omega
    exact_mod_cast this
  · have : (cnt seq (seq.foldl greedyStep (initState dw db)).result Color.black t : ℤ) =
        (db t : ℤ) := by omega
    exact_mod_cast this

/-! ## What the `changes` counter counts

Each `else` branch increments `changes`.  A flip at any later position
creates an adjacent disagreement in the result, but a flip at the very
first position does not: it happens before anything is painted, when the
first car's type has no white capacity.  So the counter exceeds the
scorer's change count by one exactly in that case. -/

theorem changeCount_concat_last :
    ∀ {l : List Color} {d : Color}, l.getLast? = some d → ∀ (a : Color),
      changeCount (l ++ [a]) = changeCount l + (if d = a then 0 else 1)
  | [], d => by simp
  | [b], d => fun h a => by
    simp only [List.getLast?_singleton, Option.some_inj] at h
    subst h
    simp [changeCount]
  | b :: c :: l, d => fun h a => by
    have ih := changeCount_concat_last (l := c :: l) (d := d) (by simpa using h) a
    simp only [List.cons_append] at ih ⊢
    have e1 : changeCount (b :: c :: (l ++ [a])) =
        (if b = c then 0 else 1) + changeCount (c :: (l ++ [a])) := rfl
    have e2 : changeCount (b :: c :: l) = (if b = c then 0 else 1) + changeCount (c :: l) := rfl
    rw [e1, ih, e2]
    omega

theorem getLast?_concat_self (l : List Color) (a : Color) : (l ++ [a]).getLast? = some a := by
  simp

/-- Folding the loop from a state whose last painted color is the current
color preserves `changes - changeCount result`. -/
theorem greedy_changes_invariant {α : Type} [DecidableEq α] :
    ∀ (rest : List α) (st : GState α),
      st.result.getLast? = some st.current →
      (rest.foldl greedyStep st).changes + changeCount st.result =
        st.changes + changeCount (rest.foldl greedyStep st).result
  | [], st => fun _ => by simp [Nat.add_comm]
  | car :: rest, st => fun hlast => by
    rw [List.foldl_cons]
    by_cases hpos : 0 < st.caps st.current car
    · have hstep : greedyStep st car =
          { st with caps := capsDec st.caps st.current car,
                    result := st.result ++ [st.current] } := by
        unfold greedyStep
        rw [if_pos hpos]
      rw [hstep]
      have ih := greedy_changes_invariant rest
        { st with caps := capsDec st.caps st.current car,
                  result := st.result ++ [st.current] }
        (getLast?_concat_self _ _)
      simp only at ih
      have hcc : changeCount (st.result ++ [st.current]) = changeCount st.result := by
        rw [changeCount_concat_last hlast]
        simp
      omega
    · have hstep : greedyStep st car =
          { caps := capsDec st.caps st.current.flip car,
            current := st.current.flip,
            changes := st.changes + 1,
            result := st.result ++ [st.current.flip] } := by
        unfold greedyStep
        rw [if_neg hpos]
      rw [hstep]
      have ih := greedy_changes_invariant rest
        { caps := capsDec st.caps st.current.flip car,
          current := st.current.flip,
          changes := st.changes + 1,
          result := st.result ++ [st.current.flip] }
        (getLast?_concat_self _ _)
      simp only at ih
      have hcc : changeCount (st.result ++ [st.current.flip]) = changeCount st.result + 1 := by
        rw [changeCount_concat_last hlast]
        simp [(Color.flip_ne st.current).symm]
      omega

/-- The greedy `changes` counter is the scorer's change count of the
result, plus one exactly when the first type's white demand is zero (the
flip before the first car is painted). -/
theorem greedy_changes_eq {α : Type} [DecidableEq α] (a : α) (rest : List α)
    (dw db : α → ℕ) :
    (greedyRun (a :: rest) dw db).changes =
      changeCount (greedyRun (a :: rest) dw db).result + (if dw a = 0 then 1 else 0) := by
  unfold greedyRun
  rw [List.foldl_cons]
  by_cases h : dw a = 0
  · have hstep : greedyStep (initState dw db) a =
        { caps := capsDec (initState dw db).caps Color.black a,
          current := Color.black,
          changes := 1,
          result := [Color.black] } := by
      unfold greedyStep
      rw [if_neg (by simp [initState, h])]
      rfl
    rw [hstep, if_pos h]
    have hinv := greedy_changes_invariant rest
      { caps := capsDec (initState dw db : GState α).caps Color.black a,
        current := Color.black,
        changes := 1,
        result := [Color.black] } (by simp)
    simp only at hinv
    simp only [changeCount] at hinv
    omega
  · have hpos : 0 < (initState dw db : GState α).caps
        (initState dw db : GState α).current a := by
      simp only [initState]
      omega
    have hstep : greedyStep (initState dw db) a =
        { caps := capsDec (initState dw db).caps Color.white a,
          current := Color.white,
          changes := 0,
          result := [Color.white] } := by
      unfold greedyStep
      rw [if_pos hpos]
      rfl
    rw [hstep, if_neg h]
    have hinv := greedy_changes_invariant rest
      { caps := capsDec (initState dw db : GState α).caps Color.white a,
        current := Color.white,
        changes := 0,
        result := [Color.white] } (by simp)
    simp only at hinv
    simp only [changeCount] at hinv
    omega

/-! ## The all-white boundary case -/

/-- When the white capacity of every still-pending type equals its pending
occurrence count, the loop paints everything white and never flips. -/
theorem greedy_all_white {α : Type} [DecidableEq α] :
    ∀ (rest : List α) (st : GState α),
      st.current = Color.white →
      (∀ t ∈ rest, st.caps Color.white t = (rest.count t : ℤ)) →
      (rest.foldl greedyStep st).result =
          st.result ++ List.replicate rest.length Color.white ∧
        (rest.foldl greedyStep st).changes = st.changes
  | [], st => fun _ _ => by simp
  | car :: rest, st => fun hcur hcap => by
    rw [List.foldl_cons]
    have hpos : 0 < st.caps st.current car := by
      rw [hcur, hcap car (by simp), List.count_cons_self]
      exact_mod_cast Nat.succ_pos _
    have hstep : greedyStep st car =
        { st with caps := capsDec st.caps st.current car,
                  result := st.result ++ [st.current] } := by
      unfold greedyStep
      rw [if_pos hpos]
    rw [hstep]
    have hcap' : ∀ t ∈ rest,
        capsDec st.caps st.current car Color.white t = (rest.count t : ℤ) := by
      intro t ht
      unfold capsDec
      by_cases htc : t = car
      · subst htc
        rw [if_pos ⟨hcur.symm, rfl⟩, hcap t (by simp), List.count_cons_self]
        push_cast
        ring
      · rw [if_neg (by tauto), hcap t (by simp [ht])]
        rw [List.count_cons, if_neg (by simp [Ne.symm htc])]
        simp
    obtain ⟨h1, h2⟩ := greedy_all_white rest
      { st with caps := capsDec st.caps st.current car,
                result := st.result ++ [st.current] } hcur hcap'
    simp only at h1 h2
    refine ⟨?_, h2⟩
    rw [h1, hcur]
    simp [List.replicate_succ]

theorem cnt_replicate {α : Type} [DecidableEq α] :
    ∀ (seq : List α) (c c' : Color) (t : α),
      cnt seq (List.replicate seq.length c) c' t = if c' = c then seq.count t else 0
  | [], c, c', t => by simp [cnt]
  | a :: s, c, c', t => by
    have ih := cnt_replicate s c c' t
    simp only [List.length_cons, List.replicate_succ]
    unfold cnt at ih ⊢
    rw [List.zip_cons_cons, List.filter_cons, List.count_cons]
    by_cases hat : a = t
    · by_cases hcc : c = c'
      · have hcond : (decide (a = t) && decide (c = c')) = true := by simp [hat, hcc]
        rw [hcond]
        simp only [if_true, List.length_cons, ih]
        rw [if_pos hcc.symm, if_pos hcc.symm]
        simp [hat]
      · have hcond : (decide (a = t) && decide (c = c')) = false := by simp [hcc]
        rw [hcond]
        have hcc' : ¬ c' = c := fun hx => hcc hx.symm
        simp only [Bool.false_eq_true, if_false]
        rw [ih, if_neg hcc', if_neg hcc']
    · have hcond : (decide (a = t) && decide (c = c')) = false := by simp [hat]
      rw [hcond]
      simp only [Bool.false_eq_true, if_false]
      rw [ih]
      have hbeq : (a == t) = false := by simp [hat]
      rw [hbeq]
      simp

theorem changeCount_replicate : ∀ (n : ℕ) (c : Color), changeCount (List.replicate n c) = 0
  | 0, c => rfl
  | 1, c => rfl
  | n + 2, c => by
    have ih := changeCount_replicate (n + 1) c
    simp only [List.replicate_succ] at ih ⊢
    simp only [changeCount, if_pos rfl, Nat.zero_add]
    simpa [List.replicate_succ] using ih

theorem endBlackNat_replicate_white (n : ℕ) :
    endBlackNat (List.replicate n Color.white) = 0 := by
  unfold endBlackNat
  cases n with
  | zero => simp
  | succ m =>
    rw [List.getLast?_replicate]
    simp

/-- A list of naturals containing `0` has minimum `0`. -/
theorem minimum_eq_zero_of_mem {l : List ℕ} (h : 0 ∈ l) : l.minimum = (0 : ℕ) :=
  List.minimum_eq_coe_iff.mpr ⟨h, fun b _ => Nat.zero_le b⟩

/-- All-white is feasible for the all-white demand table. -/
theorem replicate_white_feasible {α : Type} [DecidableEq α] (seq : List α)
    (dw db : α → ℕ) (h : ∀ t ∈ seq, dw t = seq.count t ∧ db t = 0) :
    satisfiesDemands seq dw db (List.replicate seq.length Color.white) := by
  refine ⟨by simp, ?_⟩
  intro t ht
  rw [cnt_replicate, cnt_replicate]
  constructor
  · simp [(h t ht).1]
  · simp [(h t ht).2]

/-! ## Set-based versus capacity-based heuristic

On a binary instance (every type exactly twice, demand one of each
color), a type is in a color's set exactly when that color's remaining
capacity for it has dropped from one to zero, so the two loops take the
same branch at every position. -/

theorem ind_current_sum {α : Type} [DecidableEq α] (s : Color → Finset α) (cur : Color)
    (t : α) :
    (if t ∈ s Color.white then (1 : ℕ) else 0) + (if t ∈ s Color.black then 1 else 0) =
      (if t ∈ s cur then 1 else 0) + (if t ∈ s cur.flip then 1 else 0) := by
  cases cur <;> simp [Color.flip, Nat.add_comm]

/-- Painting a car whose type is absent from color `c0`'s set keeps the
capacity/set correspondence and the membership count. -/
theorem bin_paint_update {α : Type} [DecidableEq α] {done : List α} {car : α}
    {sets : Color → Finset α} {caps : Color → α → ℤ} {c0 : Color}
    (hcap : ∀ c t, caps c t = 1 - (if t ∈ sets c then 1 else 0))
    (hsum : ∀ t, (if t ∈ sets Color.white then (1 : ℕ) else 0) +
        (if t ∈ sets Color.black then 1 else 0) = done.count t)
    (hnotmem : car ∉ sets c0) :
    (∀ c t, capsDec caps c0 car c t =
        1 - (if t ∈ setsIns sets c0 car c then 1 else 0)) ∧
      (∀ t, (if t ∈ setsIns sets c0 car Color.white then (1 : ℕ) else 0) +
          (if t ∈ setsIns sets c0 car Color.black then 1 else 0) =
        (done ++ [car]).count t) := by
  constructor
  · intro c t
    unfold capsDec setsIns
    by_cases h : c = c0 ∧ t = car
    · rw [if_pos h, if_pos h.1, h.2, hcap c car, h.1]
      simp [hnotmem]
    · by_cases hc : c = c0
      · have ht : t ≠ car := fun hh => h ⟨hc, hh⟩
        rw [if_neg h, if_pos hc, hcap c t, hc]
        simp [Finset.mem_insert, ht]
      · rw [if_neg h, if_neg hc, hcap c t]
  · intro t
    rw [List.count_append]
    by_cases ht : t = car
    · subst ht
      have hcnt : List.count t [t] = 1 := by simp
      rw [hcnt, ← hsum t]
      cases c0 with
      | white =>
        simp_all [setsIns]
        omega
      | black => simp_all [setsIns]
    · have hcnt : List.count t [car] = 0 := by
        rw [List.count_eq_zero]
        simp [ht]
      rw [hcnt, ← hsum t]
      cases c0 <;> simp [setsIns, Finset.mem_insert, ht]

/-- On a binary instance, the set-based and the capacity-based loops stay
in lockstep: same current color, same counter, same result. -/
theorem bin_general_invariant {α : Type} [DecidableEq α] (seq : List α)
    (h2 : ∀ t ∈ seq, seq.count t = 2) :
    ∀ (rest done : List α) (stB : BState α) (stG : GState α),
      done ++ rest = seq →
      stB.current = stG.current →
      stB.changes = stG.changes →
      stB.result = stG.result →
      (∀ c t, stG.caps c t = 1 - (if t ∈ stB.sets c then 1 else 0)) →
      (∀ t, (if t ∈ stB.sets Color.white then (1 : ℕ) else 0) +
          (if t ∈ stB.sets Color.black then 1 else 0) = done.count t) →
      (rest.foldl binStep stB).result = (rest.foldl greedyStep stG).result ∧
        (rest.foldl binStep stB).changes = (rest.foldl greedyStep stG).changes
  | [], done, stB, stG => fun _ _ hch hres _ _ => by
    simp only [List.foldl_nil]
    exact ⟨hres, hch⟩
  | car :: rest, done, stB, stG => fun hseq hcur hch hres hcap hsum => by
    rw [List.foldl_cons, List.foldl_cons]
    have hcarseq : car ∈ seq := by
      rw [← hseq]
      simp
    have hdone1 : done.count car ≤ 1 := by
      have hs2 := h2 car hcarseq
      rw [← hseq, List.count_append, List.count_cons_self] at hs2
      omega
    by_cases hmem : car ∈ stB.sets stB.current
    · have hother : car ∉ stB.sets stB.current.flip := by
        intro hmem'
        have hs := hsum car
        rw [ind_current_sum stB.sets stB.current car] at hs
        rw [if_pos hmem, if_pos hmem'] at hs
        omega
      have hczero : stG.caps stG.current car = 0 := by
        rw [← hcur, hcap stB.current car, if_pos hmem]
        ring
      have hstepB : binStep stB car =
          { sets := setsIns stB.sets stB.current.flip car,
            current := stB.current.flip,
            changes := stB.changes + 1,
            result := stB.result ++ [stB.current.flip] } := by
        unfold binStep
        rw [if_neg (not_not_intro hmem)]
      have hstepG : greedyStep stG car =
          { caps := capsDec stG.caps stG.current.flip car,
            current := stG.current.flip,
            changes := stG.changes + 1,
            result := stG.result ++ [stG.current.flip] } := by
        unfold greedyStep
        rw [if_neg (by rw [hczero]; exact lt_irrefl 0)]
      rw [hstepB, hstepG]
      obtain ⟨hcap', hsum'⟩ :=
        bin_paint_update hcap hsum hother
      refine bin_general_invariant seq h2 rest (done ++ [car]) _ _
        (by simpa using hseq) (by simp [hcur]) (by simp [hch]) (by simp [hres, hcur]) ?_ ?_
      · intro c t
        simp only
        rw [← hcur]
        exact hcap' c t
      · intro t
        simp only
        exact hsum' t
    · have hcpos : 0 < stG.caps stG.current car := by
        rw [← hcur, hcap stB.current car, if_neg hmem]
        norm_num
      have hstepB : binStep stB car =
          { sets := setsIns stB.sets stB.current car,
            current := stB.current,
            changes := stB.changes,
            result := stB.result ++ [stB.current] } := by
        unfold binStep
        rw [if_pos hmem]
      have hstepG : greedyStep stG car =
          { caps := capsDec stG.caps stG.current car,
            current := stG.current,
            changes := stG.changes,
            result := stG.result ++ [stG.current] } := by
        unfold greedyStep
        rw [if_pos hcpos]
      rw [hstepB, hstepG]
      obtain ⟨hcap', hsum'⟩ :=
        bin_paint_update hcap hsum hmem
      refine bin_general_invariant seq h2 rest (done ++ [car]) _ _
        (by simpa using hseq) (by simp [hcur]) (by simp [hch]) (by simp [hres, hcur]) ?_ ?_
      · intro c t
        simp only
        rw [← hcur]
        exact hcap' c t
      · intro t
        simp only
        exact hsum' t

/-- The two heuristics agree on every binary instance. -/
theorem bin_eq_general {α : Type} [DecidableEq α] (seq : List α)
    (h2 : ∀ t ∈ seq, seq.count t = 2) :
    (binRun seq).result = (greedyRun seq (fun _ => 1) (fun _ => 1)).result ∧
      (binRun seq).changes = (greedyRun seq (fun _ => 1) (fun _ => 1)).changes := by
  unfold binRun greedyRun
  exact bin_general_invariant seq h2 seq []
    { sets := fun _ => ∅, current := .white, changes := 0, result := [] }
    (initState (fun _ => 1) (fun _ => 1))
    rfl rfl rfl rfl
    (by
      intro c t
      cases c <;> simp [initState, dems])
    (by
      intro t
      simp)

/-! ## Bounds through the optimal values -/

/-- The true minimum is at most the change count of any feasible
assignment. -/
theorem trueMin_le_of_feasible {α : Type} [DecidableEq α] {seq : List α} {dw db : α → ℕ}
    {r : List Color} (h : satisfiesDemands seq dw db r) :
    trueMin seq dw db ≤ (changeCount r : WithTop ℕ) := by
  have hmem : changeCount r ∈ (((assignments seq.length).filter
      (fun r => decide (satisfiesDemands seq dw db r))).map changeCount) :=
    List.mem_map.mpr
      ⟨r, List.mem_filter.mpr ⟨(mem_assignments _ _).mpr h.1, by simpa using h⟩, rfl⟩
  exact List.minimum_le_of_mem' hmem

/-- The MIP's optimal value is at most the model objective of any
feasible assignment. -/
theorem ilpMin_le_of_feasible {α : Type} [DecidableEq α] {seq : List α} {dw db : α → ℕ}
    {r : List Color} (h : satisfiesDemands seq dw db r) :
    ilpMin seq dw db ≤ (modelObj r : WithTop ℕ) := by
  have hp : (r, zChain r) ∈
      (((assignments seq.length).product (boolLists seq.length)).filter
        (fun p => decide (ilpPairFeasible seq dw db p.1 p.2))) := by
    refine List.mem_filter.mpr ⟨List.pair_mem_product.mpr
      ⟨(mem_assignments _ _).mpr h.1,
        (mem_boolLists _ _).mpr (by rw [zChain_length]; exact h.1)⟩, ?_⟩
    simpa using zChain_pairFeasible h
  have hmem : modelObj r ∈ ((((assignments seq.length).product (boolLists seq.length)).filter
      (fun p => decide (ilpPairFeasible seq dw db p.1 p.2))).map (fun p => zCost p.2)) :=
    List.mem_map.mpr ⟨(r, zChain r), hp, by rw [zCost, zChain_cost]⟩
  exact List.minimum_le_of_mem' hmem

/-- The value the MIP reports for a returned optimum is that assignment's
change count plus the black-last boundary term. -/
theorem ilpOptimal_value {α : Type} [DecidableEq α] {seq : List α} {dw db : α → ℕ}
    {r : List Color} (h : ilpOptimal seq dw db r) :
    ilpMin seq dw db = (modelObj r : WithTop ℕ) := by
  obtain ⟨hfeas, z, hzmem, hlin, hcost⟩ := h
  have hzlen : z.length = seq.length := (mem_boolLists _ _).mp hzmem
  have hlow : modelObj r ≤ zCost z := lin_cost_lower hlin (by rw [hzlen, hfeas.1])
  refine le_antisymm (ilpMin_le_of_feasible hfeas) ?_
  rw [← hcost]
  exact_mod_cast hlow

/-- Any assignment the MIP may return has at most one more change than
any feasible assignment (the boundary term is at most one). -/
theorem ilpOptimal_changes_le {α : Type} [DecidableEq α] {seq : List α} {dw db : α → ℕ}
    {r g : List Color} (h : ilpOptimal seq dw db r) (hg : satisfiesDemands seq dw db g) :
    changeCount r ≤ changeCount g + 1 := by
  have h1 := ilpOptimal_value h
  have h2 := ilpMin_le_of_feasible hg
  rw [h1] at h2
  have h3 : modelObj r ≤ modelObj g := by exact_mod_cast h2
  have h4 : endBlackNat g ≤ 1 := by
    unfold endBlackNat
    split <;> omega
  unfold modelObj at h3
  omega

/-! ## The claims -/

/-- C1: for the notebook's binary instance, the least change count over
all feasible assignments is 2, and the binary MINLP model's optimal value
is also 2, attained by the recorded solution, which is feasible and has
change count 2. -/
theorem exact_min_is_two_on_demo :
    trueMin seq12 oneEach oneEach = ((2 : ℕ) : WithTop ℕ) ∧
      binMin seq12 = ((2 : ℤ) : WithTop ℤ) ∧
      binFeasible seq12 xStar ∧ sqrObj xStar = 2 ∧ changeCount xStar = 2 := by
  refine ⟨by decide, by decide, by decide, by decide, by decide⟩

/-- C2: on the notebook's binary instance the set-based heuristic
produces exactly `white white white white black black black black white
black black white` and reports 4 changes. -/
theorem binary_heuristic_on_demo :
    (binRun seq12).result =
        [Color.white, Color.white, Color.white, Color.white,
         Color.black, Color.black, Color.black, Color.black,
         Color.white, Color.black, Color.black, Color.white] ∧
      (binRun seq12).changes = 4 := by
  refine ⟨by decide, by decide⟩

/-- C3: on a valid demand table, the greedy heuristic's output meets
every demand exactly, and so does any assignment the exact model may
return. -/
theorem solvers_meet_demands {α : Type} [DecidableEq α] (seq : List α) (dw db : α → ℕ)
    (hv : ∀ t ∈ seq, dw t + db t = seq.count t) :
    satisfiesDemands seq dw db (greedyRun seq dw db).result ∧
      ∀ r, ilpOptimal seq dw db r → satisfiesDemands seq dw db r :=
  ⟨greedy_feasible seq dw db hv, fun _ h => h.1⟩

theorem solvers_meet_demands_witness :
    satisfiesDemands seq12 oneEach oneEach (greedyRun seq12 oneEach oneEach).result ∧
      satisfiesDemands seqOne dwz dbz [Color.black] :=
  ⟨(solvers_meet_demands seq12 oneEach oneEach (by decide)).1,
    (solvers_meet_demands seqOne dwz dbz (by decide)).2 [Color.black] (by decide)⟩

/-- C4, counterexample: on the tie instance the assignment
`white black black white` is an optimum of the notebook's MIP, yet its
change count 2 exceeds the greedy result's change count 1, refuting
`GreedyChangeCount >= ExactChangeCount` for that returned optimum. -/
theorem exact_output_can_beat_greedy_claim :
    (∀ t ∈ seqTie, dwTie t + dbTie t = seqTie.count t) ∧
      ilpOptimal seqTie dwTie dbTie rTie ∧
      changeCount rTie = 2 ∧
      changeCount (greedyRun seqTie dwTie dbTie).result = 1 := by
  refine ⟨by decide, by decide, by decide, by decide⟩

/-- C4, amended: the greedy change count is an upper bound on the true
minimum, and any optimum the MIP may return exceeds the greedy change
count by at most one (the black-last boundary term). -/
theorem greedy_bounds_exact :
    ∀ {α : Type} [DecidableEq α] (seq : List α) (dw db : α → ℕ),
      (∀ t ∈ seq, dw t + db t = seq.count t) →
      trueMin seq dw db ≤ (changeCount (greedyRun seq dw db).result : WithTop ℕ) ∧
        ∀ r, ilpOptimal seq dw db r →
          changeCount r ≤ changeCount (greedyRun seq dw db).result + 1 := by
  intro α _ seq dw db hv
  have hg := greedy_feasible seq dw db hv
  exact ⟨trueMin_le_of_feasible hg, fun r hr => ilpOptimal_changes_le hr hg⟩

theorem greedy_bounds_exact_witness :
    trueMin seqTie dwTie dbTie ≤
        (changeCount (greedyRun seqTie dwTie dbTie).result : WithTop ℕ) ∧
      changeCount rTie ≤ changeCount (greedyRun seqTie dwTie dbTie).result + 1 :=
  ⟨(greedy_bounds_exact seqTie dwTie dbTie (by decide)).1,
    (greedy_bounds_exact seqTie dwTie dbTie (by decide)).2 rTie (by decide)⟩

/-- C5, counterexample: on the valid one-car instance with white demand
zero, the greedy counter reports 1 while rescoring its output gives 0,
and the MIP's reported objective is 1 while its returned assignment
rescores to 0. -/
theorem reported_value_differs_from_rescoring :
    (∀ t ∈ seqOne, dwz t + dbz t = seqOne.count t) ∧
      (greedyRun seqOne dwz dbz).changes = 1 ∧
      changeCount (greedyRun seqOne dwz dbz).result = 0 ∧
      ilpOptimal seqOne dwz dbz [Color.black] ∧
      ilpMin seqOne dwz dbz = ((1 : ℕ) : WithTop ℕ) ∧
      changeCount [Color.black] = 0 := by
  refine ⟨by decide, by decide, by decide, by decide, by decide, by decide⟩

/-- C5, amended: the greedy counter equals the rescored change count
plus one exactly when the first type's white demand is zero, and the
MIP's reported value equals the rescored change count of a returned
optimum plus its black-last boundary term. -/
theorem reported_value_versus_rescoring {α : Type} [DecidableEq α] (a : α) (rest : List α)
    (dw db : α → ℕ) :
    (greedyRun (a :: rest) dw db).changes =
        changeCount (greedyRun (a :: rest) dw db).result + (if dw a = 0 then 1 else 0) ∧
      ∀ r, ilpOptimal (a :: rest) dw db r →
        ilpMin (a :: rest) dw db = (modelObj r : WithTop ℕ) :=
  ⟨greedy_changes_eq a rest dw db, fun _ hr => ilpOptimal_value hr⟩

theorem reported_value_versus_rescoring_witness :
    (greedyRun seqOne dwz dbz).changes =
        changeCount (greedyRun seqOne dwz dbz).result + (if dwz CarType.A = 0 then 1 else 0) ∧
      ilpMin seqOne dwz dbz = (modelObj [Color.black] : WithTop ℕ) :=
  ⟨(reported_value_versus_rescoring CarType.A [] dwz dbz).1,
    (reported_value_versus_rescoring CarType.A [] dwz dbz).2 [Color.black] (by decide)⟩

/-- C6: the linearized program is not equivalent to minimizing the true
change count.  On the valid one-car instance with white demand zero the
vanishing lead reference forces `Z` at the last position to be at least
`X` there, so the program's minimum is 1 while the least change count
over feasible assignments is 0. -/
theorem linearization_gap_at_failing_input :
    (∀ t ∈ seqOne, dwz t + dbz t = seqOne.count t) ∧
      ilpMin seqOne dwz dbz = ((1 : ℕ) : WithTop ℕ) ∧
      trueMin seqOne dwz dbz = ((0 : ℕ) : WithTop ℕ) := by
  refine ⟨by decide, by decide, by decide⟩

/-- C7: when every type's white demand is its full occurrence count, the
greedy heuristic paints everything white, never flips, rescoring gives 0,
and both the true minimum and the MIP's optimal value are 0. -/
theorem all_white_demands_give_zero_changes {α : Type} [DecidableEq α] (seq : List α)
    (dw db : α → ℕ) (h : ∀ t ∈ seq, dw t = seq.count t ∧ db t = 0) :
    (greedyRun seq dw db).result = List.replicate seq.length Color.white ∧
      (greedyRun seq dw db).changes = 0 ∧
      changeCount (greedyRun seq dw db).result = 0 ∧
      trueMin seq dw db = ((0 : ℕ) : WithTop ℕ) ∧
      ilpMin seq dw db = ((0 : ℕ) : WithTop ℕ) := by
  have hrun := greedy_all_white seq (initState dw db) rfl
    (by
      intro t ht
      simp only [initState]
      exact_mod_cast (h t ht).1)
  have hres : (greedyRun seq dw db).result = List.replicate seq.length Color.white := by
    unfold greedyRun
    rw [hrun.1]
    simp [initState]
  have hfeas := replicate_white_feasible seq dw db h
  have hzero : changeCount (List.replicate seq.length Color.white) = 0 :=
    changeCount_replicate _ _
  refine ⟨hres, ?_, ?_, ?_, ?_⟩
  · unfold greedyRun
    rw [hrun.2]
    rfl
  · rw [hres, hzero]
  · apply minimum_eq_zero_of_mem
    refine List.mem_map.mpr ⟨List.replicate seq.length Color.white,
      List.mem_filter.mpr ⟨(mem_assignments _ _).mpr (by simp), by simpa using hfeas⟩, hzero⟩
  · rw [ilpMin_eq_modelMin]
    apply minimum_eq_zero_of_mem
    refine List.mem_map.mpr ⟨List.replicate seq.length Color.white,
      List.mem_filter.mpr ⟨(mem_assignments _ _).mpr (by simp), by simpa using hfeas⟩, ?_⟩
    rw [modelObj, hzero, endBlackNat_replicate_white]

theorem all_white_demands_witness :
    (greedyRun seqTwo dwFull dwz).result = List.replicate seqTwo.length Color.white ∧
      (greedyRun seqTwo dwFull dwz).changes = 0 ∧
      changeCount (greedyRun seqTwo dwFull dwz).result = 0 ∧
      trueMin seqTwo dwFull dwz = ((0 : ℕ) : WithTop ℕ) ∧
      ilpMin seqTwo dwFull dwz = ((0 : ℕ) : WithTop ℕ) :=
  all_white_demands_give_zero_changes seqTwo dwFull dwz (by decide)

/-- C8, counterexample: on the invalid two-car instance whose type has
total demand one, both capacities are exhausted before the second car,
yet the loop still returns a full assignment and drives the white
capacity to -1 instead of failing. -/
theorem exhausted_capacity_still_paints :
    (greedyRun seqOne dwz dbz).caps Color.white CarType.A = 0 ∧
      (greedyRun seqOne dwz dbz).caps Color.black CarType.A = 0 ∧
      (greedyRun seqOne dwz dbz).current = Color.black ∧
      (greedyRun seqTwo dwz dbz).result = [Color.black, Color.white] ∧
      (greedyRun seqTwo dwz dbz).caps Color.white CarType.A = -1 := by
  refine ⟨by decide, by decide, by decide, by decide, by decide⟩

/-- C8, amended: when the current color has no capacity left for the
type, the loop flips and paints unconditionally — even when the flipped
color has no capacity either, in which case that capacity goes negative;
there is no failure path. -/
theorem greedy_never_fails_on_exhaustion {α : Type} [DecidableEq α] (st : GState α)
    (car : α) (h1 : st.caps st.current car ≤ 0) (h2 : st.caps st.current.flip car ≤ 0) :
    (greedyStep st car).result = st.result ++ [st.current.flip] ∧
      (greedyStep st car).changes = st.changes + 1 ∧
      (greedyStep st car).caps st.current.flip car < 0 := by
  have hneg : ¬ 0 < st.caps st.current car := not_lt.mpr h1
  unfold greedyStep
  rw [if_neg hneg]
  refine ⟨rfl, rfl, ?_⟩
  show capsDec st.caps st.current.flip car st.current.flip car < 0
  unfold capsDec
  rw [if_pos ⟨rfl, rfl⟩]
  omega

theorem greedy_never_fails_on_exhaustion_witness :
    (greedyStep (greedyRun seqOne dwz dbz) CarType.A).result =
        (greedyRun seqOne dwz dbz).result ++ [(greedyRun seqOne dwz dbz).current.flip] ∧
      (greedyStep (greedyRun seqOne dwz dbz) CarType.A).changes =
        (greedyRun seqOne dwz dbz).changes + 1 ∧
      (greedyStep (greedyRun seqOne dwz dbz) CarType.A).caps
          (greedyRun seqOne dwz dbz).current.flip CarType.A < 0 :=
  greedy_never_fails_on_exhaustion (greedyRun seqOne dwz dbz) CarType.A
    (by decide) (by decide)

/-- C9: with the DemandTable omitted, construction succeeds exactly when
every type occurs twice, synthesizing demand one of each color, and fails
with `InvalidInstance` otherwise. -/
theorem binary_model_construction {α : Type} [DecidableEq α] (seq : List α) :
    ((∀ t ∈ seq, seq.count t = 2) →
        mkBinaryModel seq = .ok (seq, fun _ => 1, fun _ => 1)) ∧
      (¬ (∀ t ∈ seq, seq.count t = 2) →
        mkBinaryModel seq = .error .invalidInstance) := by
  constructor
  · intro h
    rw [mkBinaryModel, if_pos h]
  · intro h
    rw [mkBinaryModel, if_neg h]

theorem binary_model_construction_witness :
    mkBinaryModel seq12 = .ok (seq12, fun _ => 1, fun _ => 1) ∧
      mkBinaryModel seqOne = .error .invalidInstance :=
  ⟨(binary_model_construction seq12).1 (by decide),
    (binary_model_construction seqOne).2 (by decide)⟩

/-- C10: on every binary instance the set-based and the capacity-based
heuristics produce the same assignment and the same change counter. -/
theorem heuristics_agree_on_binary_instances {α : Type} [DecidableEq α] (seq : List α)
    (h2 : ∀ t ∈ seq, seq.count t = 2) :
    (binRun seq).result = (greedyRun seq (fun _ => 1) (fun _ => 1)).result ∧
      (binRun seq).changes = (greedyRun seq (fun _ => 1) (fun _ => 1)).changes :=
  bin_eq_general seq h2

theorem heuristics_agree_witness :
    (binRun seq12).result = (greedyRun seq12 (fun _ => 1) (fun _ => 1)).result ∧
      (binRun seq12).changes = (greedyRun seq12 (fun _ => 1) (fun _ => 1)).changes :=
  heuristics_agree_on_binary_instances seq12 (by decide)
